import Mathlib

/-!
Verification of the chunked MQTT file-transfer subsystem (`file_transfer.py`).

The development shallowly embeds the two protocol endpoints:

* `send_file` models `ChunkedFilePublisher.send_file`: manifest computation
  (`total_chunks`, per-chunk and whole-file digests) and the ordered list of
  published messages.
* `step` / `run` model `ChunkedFileSubscriber` processing a sequence of
  inbound messages for one `file_id`: `_handle_meta`, `_handle_chunk`,
  `_emit_status`, `_emit_ack`, together with the persisted `state.json`
  fields and the on-disk data file.

Bytes are modelled as `Nat`, the data file as `List Nat`, and SHA-256 as an
abstract function `hash : List Nat → Nat` (theorems that need
collision-freeness take an explicit injectivity hypothesis; witnesses
instantiate `hash` with the injective encoding `encL`).  Python `int`s that
can go negative (`chunk_index`, `chunk_size`, `total_chunks`) are modelled as
`Int`.  An exception raised inside a handler is caught by
`MQTTSubscriber._on_message`; in the model the corresponding branches return
the state reached so far with no further changes.  The `Bool` flag threaded
through chunk processing models whether the whole-file re-hash in
`_handle_chunk` raises (the `except` branch at file_transfer.py:259).
-/

/-- Manifest / meta message (`orca.file.manifest.v1`).  `name`, `size`,
`chunk_size` and `total_chunks` are accessed with `meta[...]` in
`_handle_meta`, so a message lacking them dies with `KeyError` and is
discarded; `file_sha256` and `chunk_sha256` are read with `.get`, so they may
be absent (`Option`). -/
structure MetaMsg where
  name : String
  size : Int
  chunk_size : Int
  total_chunks : Int
  file_sha256 : Option Nat
  chunk_sha256 : Option (List Nat)
deriving DecidableEq

/-- Persisted receiver state for one `file_id` (`_load_state` defaults). -/
structure RState where
  name : Option String
  size : Option Int
  chunk_size : Option Int
  total_chunks : Option Int
  file_sha256 : Option Nat
  chunk_sha256 : Option (List Nat)
  received : List Int
  complete : Bool
  ack_sent : Bool
deriving DecidableEq

/-- The fresh state created by `_load_state` when no `state.json` exists. -/
def initialState : RState :=
  { name := none, size := none, chunk_size := none, total_chunks := none
    file_sha256 := none, chunk_sha256 := none
    received := [], complete := false, ack_sent := false }

/-- Inbound messages on the `file/<id>/<kind>` topics, after JSON decoding.
`statusRequest` is any message on the `status` topic (the sender's probe);
`other` covers non-JSON payloads and the `retry`/`ack` kinds, which the
receiver's dispatcher ignores. -/
inductive InMsg
  | meta (m : MetaMsg)
  | chunk (idx : Int) (blob : List Nat)
  | statusRequest
  | other
deriving DecidableEq

/-- Messages the receiver publishes (status payload fields, retry payload,
ack). -/
inductive OutMsg
  | status (receivedCount : Nat) (total : Option Int) (missing : List Int) (complete : Bool)
  | retry (missing : List Int)
  | ack
deriving DecidableEq

/-- `range(total)` for a Python `int` that may be negative or zero. -/
def pyRange (t : Int) : List Int :=
  (List.range t.toNat).map Int.ofNat

/-- The missing-chunk list computed by `_emit_status`:
`[i for i in range(total) if i not in have]`; empty when the manifest (and so
`total_chunks`) is unknown. -/
def missingOf (s : RState) : List Int :=
  match s.total_chunks with
  | none => []
  | some t => (pyRange t).filter (fun i => decide (¬ i ∈ s.received))

/-- `_emit_status`: publish a status payload, and a retry request exactly when
the missing list is non-empty; both carry `missing[:500]`. -/
def emitStatus (s : RState) : List OutMsg :=
  OutMsg.status s.received.length s.total_chunks ((missingOf s).take 500) s.complete ::
    (if missingOf s = [] then [] else [OutMsg.retry ((missingOf s).take 500)])

/-- Result of processing one inbound message: updated state, updated data
file, and the messages emitted during the step. -/
structure RunRes where
  state : RState
  file : List Nat
  out : List OutMsg
deriving DecidableEq

/-- `_emit_ack`: publish the ack once, guarded by the persisted `ack_sent`
flag. -/
def emitAck (s : RState) (file : List Nat) : RunRes :=
  if s.ack_sent then ⟨s, file, []⟩
  else ⟨{ s with ack_sent := true }, file, [OutMsg.ack]⟩

/-- Positional write of `_handle_chunk`: seek to `off` (creating a zero-filled
gap when the file is shorter, as POSIX seek-past-end does) and overwrite
`blob.length` bytes. -/
def writeAt (file : List Nat) (off : Nat) (blob : List Nat) : List Nat :=
  let padded := file ++ List.replicate (off - file.length) 0
  padded.take off ++ blob ++ padded.drop (off + blob.length)

/-- The seek stride `state["chunk_size"] or len(blob)`: Python `or` falls back
to `len(blob)` when `chunk_size` is `None` or `0`. -/
def strideOf (s : RState) (blob : List Nat) : Int :=
  match s.chunk_size with
  | some cs => if cs = 0 then (blob.length : Int) else cs
  | none => (blob.length : Int)

/-- Python list indexing `l[i]`, including negative indices;
`none` is an `IndexError`. -/
def pyIdx {α : Type} (l : List α) (i : Int) : Option α :=
  if 0 ≤ i then l.get? i.toNat
  else if 0 ≤ i + l.length then l.get? (i + (l.length : Int)).toNat
  else none

/-- Outcome of the per-chunk hash check in `_handle_chunk`
(file_transfer.py:222-231).  The check runs only when the manifest's
`chunk_sha256` list is present, non-empty and `idx < len(...)` (a Python
comparison, so negative indices pass it and index from the end); `err` is an
`IndexError` escaping the handler.  Entries are modelled as always present;
the source additionally skips the comparison for empty entries. -/
inductive Verdict
  | ok
  | mismatch
  | err
deriving DecidableEq

def chunkVerdict (hash : List Nat → Nat) (s : RState) (idx : Int) (blob : List Nat) : Verdict :=
  match s.chunk_sha256 with
  | none => Verdict.ok
  | some hs =>
    if hs ≠ [] ∧ idx < (hs.length : Int) then
      match pyIdx hs idx with
      | none => Verdict.err
      | some expected => if hash blob ≠ expected then Verdict.mismatch else Verdict.ok
    else Verdict.ok

/-- Completion check of `_handle_chunk` (file_transfer.py:237-265): when the
chunk count reaches `total_chunks` and the transfer is not yet complete, set
`complete` (this is persisted before verification), re-hash the data file and
either ack or revert `complete` and emit a status; `vfail = true` models the
re-hash raising, whose handler emits a status and leaves `complete` set.
Otherwise emit the periodic flow-control status every 50 received chunks. -/
def completionCheck (hash : List Nat → Nat) (vfail : Bool) (s : RState) (file : List Nat) :
    RunRes :=
  match s.total_chunks with
  | some total =>
    if (s.received.length : Int) ≥ total ∧ s.complete = false then
      let s2 := { s with complete := true }
      if vfail then ⟨s2, file, emitStatus s2⟩
      else
        match s2.file_sha256 with
        | some expected =>
          if hash file ≠ expected then
            let s3 := { s2 with complete := false }
            ⟨s3, file, emitStatus s3⟩
          else emitAck s2 file
        | none => emitAck s2 file
    else ⟨s, file, if s.received.length % 50 = 0 then emitStatus s else []⟩
  | none => ⟨s, file, if s.received.length % 50 = 0 then emitStatus s else []⟩

/-- `_handle_chunk`.  When no manifest has been received the persisted `name`
is `None` and `_data_path` raises `TypeError` (`Path / None`) before anything
is written; the subscriber's `_on_message` catches it, so the chunk is
dropped.  A negative seek offset raises before the write; an `IndexError`
from the hash lookup aborts after the write but before the state update. -/
def handleChunk (hash : List Nat → Nat) (idx : Int) (blob : List Nat) (vfail : Bool)
    (s : RState) (file : List Nat) : RunRes :=
  match s.name with
  | none => ⟨s, file, []⟩
  | some _ =>
    let off := idx * strideOf s blob
    if off < 0 then ⟨s, file, []⟩
    else
      let file' := writeAt file off.toNat blob
      match chunkVerdict hash s idx blob with
      | Verdict.err => ⟨s, file', []⟩
      | Verdict.mismatch => ⟨s, file', emitStatus s⟩
      | Verdict.ok =>
        let received' := if idx ∈ s.received then s.received else s.received ++ [idx]
        completionCheck hash vfail { s with received := received' } file'

/-- `_handle_meta`: commit all manifest fields to the state (unconditionally
overwriting any previous manifest) and emit a status. -/
def handleMeta (m : MetaMsg) (s : RState) : RState × List OutMsg :=
  let s' := { s with
    name := some m.name, size := some m.size, chunk_size := some m.chunk_size
    total_chunks := some m.total_chunks, file_sha256 := m.file_sha256
    chunk_sha256 := m.chunk_sha256 }
  (s', emitStatus s')

/-- `_on_message` dispatch for one inbound message. -/
def step (hash : List Nat → Nat) (s : RState) (file : List Nat) (m : InMsg) (vfail : Bool) :
    RunRes :=
  match m with
  | InMsg.meta mm => ⟨(handleMeta mm s).1, file, (handleMeta mm s).2⟩
  | InMsg.chunk idx blob => handleChunk hash idx blob vfail s file
  | InMsg.statusRequest => ⟨s, file, emitStatus s⟩
  | InMsg.other => ⟨s, file, []⟩

/-- Process a list of inbound messages starting from `r`, accumulating all
emissions.  Each message is paired with the flag saying whether the
whole-file re-hash raises while processing it. -/
def runFrom (hash : List Nat → Nat) (r : RunRes) : List (InMsg × Bool) → RunRes
  | [] => r
  | (m, vf) :: rest =>
    let st := step hash r.state r.file m vf
    runFrom hash ⟨st.state, st.file, r.out ++ st.out⟩ rest

/-- Process a list of inbound messages from the fresh state (no `state.json`,
no data file). -/
def run (hash : List Nat → Nat) (ms : List (InMsg × Bool)) : RunRes :=
  runFrom hash ⟨initialState, [], []⟩ ms

/-! ### Sender (`ChunkedFilePublisher.send_file`) -/

inductive SendErr
  | fileNotFound
  | zeroDivision
deriving DecidableEq

inductive SendMsg
  | meta (m : MetaMsg)
  | chunk (index : Nat) (sha : Nat) (data : List Nat)
  | statusProbe
deriving DecidableEq

/-- Successive `f.read(chunk_size)` results for a positive chunk size. -/
def chunksOf (cs : Nat) (bs : List Nat) : List (List Nat) :=
  if bs = [] ∨ cs = 0 then [] else bs.take cs :: chunksOf cs (bs.drop cs)
termination_by bs.length
decreasing_by
  rename_i h
  rw [not_or] at h
  have hl : 0 < bs.length := List.length_pos.mpr h.1
  have hc : 0 < cs := Nat.pos_of_ne_zero h.2
  simpa [List.length_drop] using Nat.sub_lt hl hc

/-- Successive `f.read(chunk_size)` results: a negative size makes Python read
the whole file in one call. -/
def pyReads (cs : Int) (bs : List Nat) : List (List Nat) :=
  if cs < 0 then (if bs = [] then [] else [bs]) else chunksOf cs.toNat bs

/-- The chunk-publishing loop (file_transfer.py:85-98): index starts at 0 and
increments per read; each payload carries the chunk's digest. -/
def chunkMsgsFrom (hash : List Nat → Nat) (i : Nat) : List (List Nat) → List SendMsg
  | [] => []
  | d :: rest => SendMsg.chunk i (hash d) d :: chunkMsgsFrom hash (i + 1) rest

/-- The manifest computed by `send_file`: `total_chunks` is Python's
`(size + chunk_size - 1) // chunk_size` (floor division, `Int.fdiv`), the
whole-file digest streams the file, and `chunk_sha256` hashes each read. -/
def senderManifest (hash : List Nat → Nat) (s : List Nat) (cs : Int) : MetaMsg :=
  { name := "f", size := (s.length : Int), chunk_size := cs
    total_chunks := Int.fdiv ((s.length : Int) + cs - 1) cs
    file_sha256 := some (hash s)
    chunk_sha256 := some ((pyReads cs s).map hash) }

/-- `send_file`: `none` models a path with no file (`FileNotFoundError`
before anything is published); `chunk_size = 0` raises `ZeroDivisionError`
computing `total_chunks`, also before anything is published.  Otherwise the
manifest is published first, then every chunk in read order, then the status
probe. -/
def send_file (hash : List Nat → Nat) (f : Option (List Nat)) (cs : Int) :
    Except SendErr (List SendMsg) :=
  match f with
  | none => Except.error SendErr.fileNotFound
  | some s =>
    if cs = 0 then Except.error SendErr.zeroDivision
    else Except.ok (SendMsg.meta (senderManifest hash s cs) ::
      (chunkMsgsFrom hash 0 (pyReads cs s) ++ [SendMsg.statusProbe]))

/-- A concrete injective stand-in for SHA-256 on byte lists, used by the
witnesses: fold with the Cantor-style pairing function. -/
def encL (bs : List Nat) : Nat :=
  bs.foldr (fun b a => Nat.pair b a + 1) 0

/-! ### Basic facts about the emission helpers -/

lemma ack_not_mem_emitStatus (s : RState) : OutMsg.ack ∉ emitStatus s := by
  unfold emitStatus
  split <;> simp

lemma count_ack_emitStatus (s : RState) : (emitStatus s).count OutMsg.ack = 0 :=
  List.count_eq_zero.mpr (ack_not_mem_emitStatus s)

lemma missingOf_pairwise (s : RState) : (missingOf s).Pairwise (fun a b => a < b) := by
  unfold missingOf
  cases s.total_chunks with
  | none => simp
  | some t =>
    have hp : List.Pairwise (fun a b : Int => a < b) (pyRange t) := by
      simp only [pyRange, List.pairwise_map]
      exact (List.pairwise_lt_range t.toNat).imp (fun h => Int.ofNat_lt.mpr h)
    exact hp.filter _


/-- Exhaustive description of `completionCheck`'s four outcomes: not-yet /
already complete (periodic status), verification exception, whole-file
mismatch (revert `complete`), and verified completion (ack path). -/
lemma completionCheck_spec (hash : List Nat → Nat) (vfail : Bool) (s : RState)
    (file : List Nat) :
    (completionCheck hash vfail s file =
        ⟨s, file, if s.received.length % 50 = 0 then emitStatus s else []⟩ ∧
      (s.total_chunks = none ∨ s.complete = true ∨
        (∃ t, s.total_chunks = some t ∧ ¬ t ≤ (s.received.length : Int)))) ∨
    ((∃ t, s.total_chunks = some t ∧ t ≤ (s.received.length : Int)) ∧
      s.complete = false ∧ vfail = true ∧
      completionCheck hash vfail s file =
        ⟨{ s with complete := true }, file, emitStatus { s with complete := true }⟩) ∨
    ((∃ t, s.total_chunks = some t ∧ t ≤ (s.received.length : Int)) ∧
      s.complete = false ∧ vfail = false ∧
      (∃ h, s.file_sha256 = some h ∧ hash file ≠ h) ∧
      completionCheck hash vfail s file =
        ⟨{ s with complete := false }, file, emitStatus { s with complete := false }⟩) ∨
    ((∃ t, s.total_chunks = some t ∧ t ≤ (s.received.length : Int)) ∧
      s.complete = false ∧ vfail = false ∧
      (s.file_sha256 = none ∨ s.file_sha256 = some (hash file)) ∧
      completionCheck hash vfail s file = emitAck { s with complete := true } file) := by
  unfold completionCheck
  rcases htot : s.total_chunks with _ | total
  · exact Or.inl ⟨rfl, Or.inl rfl⟩
  · by_cases hg : ((s.received.length : Int) ≥ total ∧ s.complete = false)
    · cases vfail with
      | true =>
        refine Or.inr (Or.inl ⟨⟨total, rfl, hg.1⟩, hg.2, rfl, ?_⟩)
        simp [if_pos hg]
      | false =>
        rcases hsha : s.file_sha256 with _ | hval
        · refine Or.inr (Or.inr (Or.inr ⟨⟨total, rfl, hg.1⟩, hg.2, rfl, Or.inl rfl, ?_⟩))
          simp [if_pos hg]
        · by_cases hh : hash file = hval
          · refine Or.inr (Or.inr (Or.inr ⟨⟨total, rfl, hg.1⟩, hg.2, rfl,
              Or.inr (by rw [hh]), ?_⟩))
            simp [if_pos hg, hh]
          · refine Or.inr (Or.inr (Or.inl ⟨⟨total, rfl, hg.1⟩, hg.2, rfl,
              ⟨hval, rfl, hh⟩, ?_⟩))
            simp [if_pos hg, hh]
    · refine Or.inl ⟨?_, ?_⟩
      · simp [if_neg hg]
      · by_cases hc : s.complete = true
        · exact Or.inr (Or.inl hc)
        · exact Or.inr (Or.inr ⟨total, rfl, fun hle => hg ⟨hle, by simpa using hc⟩⟩)

/-- `_emit_ack` either does nothing (flag already set) or publishes exactly one
ack and sets the flag. -/
lemma emitAck_spec (s : RState) (file : List Nat) :
    (s.ack_sent = true ∧ emitAck s file = ⟨s, file, []⟩) ∨
    (s.ack_sent = false ∧ emitAck s file = ⟨{ s with ack_sent := true }, file, [OutMsg.ack]⟩) := by
  unfold emitAck
  by_cases h : s.ack_sent = true
  · exact Or.inl ⟨h, by simp [h]⟩
  · exact Or.inr ⟨by simpa using h, by simp [h]⟩

/-- The four shapes a `_handle_chunk` step can take: dropped before the write
(`TypeError` on the unknown name, or negative seek), aborted after the write
(`IndexError` in the hash lookup), rejected by the per-chunk hash check, or
accepted and passed on to the completion check with the index recorded. -/
lemma handleChunk_spec (hash : List Nat → Nat) (idx : Int) (blob : List Nat) (vfail : Bool)
    (s : RState) (file : List Nat) :
    handleChunk hash idx blob vfail s file = ⟨s, file, []⟩ ∨
    handleChunk hash idx blob vfail s file =
      ⟨s, writeAt file (idx * strideOf s blob).toNat blob, []⟩ ∨
    handleChunk hash idx blob vfail s file =
      ⟨s, writeAt file (idx * strideOf s blob).toNat blob, emitStatus s⟩ ∨
    handleChunk hash idx blob vfail s file =
      completionCheck hash vfail
        { s with received := if idx ∈ s.received then s.received else s.received ++ [idx] }
        (writeAt file (idx * strideOf s blob).toNat blob) := by
  unfold handleChunk
  rcases hn : s.name with _ | nm
  · exact Or.inl rfl
  · by_cases hoff : idx * strideOf s blob < 0
    · simp [if_pos hoff]
    · simp only [if_neg hoff]
      rcases hv : chunkVerdict hash s idx blob with _ | _ | _ <;> simp [hv]

/-- If the completion check publishes an ack, the flag was clear and is set,
`complete` holds, the ack is the only emission, manifest fields are untouched,
a `total_chunks` was known, and any recorded `file_sha256` equals the digest
of the data file. -/
lemma completionCheck_ack (hash : List Nat → Nat) (vfail : Bool) (s : RState)
    (file : List Nat) (h : OutMsg.ack ∈ (completionCheck hash vfail s file).out) :
    s.ack_sent = false ∧
    (completionCheck hash vfail s file).state.ack_sent = true ∧
    (completionCheck hash vfail s file).state.complete = true ∧
    (completionCheck hash vfail s file).out = [OutMsg.ack] ∧
    (completionCheck hash vfail s file).state.total_chunks = s.total_chunks ∧
    (completionCheck hash vfail s file).state.file_sha256 = s.file_sha256 ∧
    (∃ t, s.total_chunks = some t) ∧
    (s.file_sha256 = none ∨ s.file_sha256 = some (hash file)) ∧
    (completionCheck hash vfail s file).file = file := by
  rcases completionCheck_spec hash vfail s file with
      ⟨heq, -⟩ | ⟨-, -, -, heq⟩ | ⟨-, -, -, -, heq⟩ | ⟨hT, hc, hv, hsha, heq⟩
  · rw [heq] at h
    dsimp only at h
    split at h
    · exact absurd h (ack_not_mem_emitStatus _)
    · simp at h
  · rw [heq] at h
    exact absurd (by simpa using h) (ack_not_mem_emitStatus _)
  · rw [heq] at h
    exact absurd (by simpa using h) (ack_not_mem_emitStatus _)
  · rw [heq] at h ⊢
    rcases emitAck_spec { s with complete := true } file with ⟨ha, he2⟩ | ⟨ha, he2⟩
    · rw [he2] at h
      simp at h
    · rw [he2]
      refine ⟨by simpa using ha, by simp, by simp, rfl, by simp, by simp, ?_, ?_, rfl⟩
      · obtain ⟨t, ht⟩ := hT
        exact ⟨t, ht.1⟩
      · exact hsha

/-- Characterisation of any step that publishes an ack: the persisted flag was
clear and is set, the state is complete, the ack is the step's only emission,
the manifest fields are untouched, a manifest had been committed, and — the
integrity guard — whenever `file_sha256` is recorded it equals the hash of the
data file as left by the step. -/
lemma step_ack (hash : List Nat → Nat) (s : RState) (file : List Nat) (m : InMsg)
    (vfail : Bool) (h : OutMsg.ack ∈ (step hash s file m vfail).out) :
    s.ack_sent = false ∧
    (step hash s file m vfail).state.ack_sent = true ∧
    (step hash s file m vfail).state.complete = true ∧
    (step hash s file m vfail).out = [OutMsg.ack] ∧
    (step hash s file m vfail).state.total_chunks = s.total_chunks ∧
    (step hash s file m vfail).state.file_sha256 = s.file_sha256 ∧
    (∃ t, s.total_chunks = some t) ∧
    (s.file_sha256 = none ∨ s.file_sha256 = some (hash (step hash s file m vfail).file)) := by
  cases m with
  | meta mm =>
    exact absurd (by simpa [step, handleMeta] using h) (ack_not_mem_emitStatus _)
  | statusRequest =>
    exact absurd (by simpa [step] using h) (ack_not_mem_emitStatus _)
  | other => simp [step] at h
  | chunk idx blob =>
    have hstep : step hash s file (InMsg.chunk idx blob) vfail =
        handleChunk hash idx blob vfail s file := rfl
    rw [hstep] at h ⊢
    rcases handleChunk_spec hash idx blob vfail s file with he | he | he | he <;> rw [he] at h ⊢
    · simp at h
    · simp at h
    · exact absurd (by simpa using h) (ack_not_mem_emitStatus _)
    · obtain ⟨h1, h2, h3, h4, h5, h6, h7, h8, h9⟩ := completionCheck_ack hash vfail _ _ h
    
      exact ⟨by simpa using h1, h2, h3, h4, by simpa using h5, by simpa using h6,
        (by simpa using h7), by rw [h9]; simpa using h8⟩

/-- `completionCheck` never touches the data file, the manifest fields or
`received`. -/
lemma completionCheck_frame (hash : List Nat → Nat) (vfail : Bool) (s : RState)
    (file : List Nat) :
    (completionCheck hash vfail s file).state.total_chunks = s.total_chunks ∧
    (completionCheck hash vfail s file).state.file_sha256 = s.file_sha256 ∧
    (completionCheck hash vfail s file).state.received = s.received ∧
    (completionCheck hash vfail s file).state.name = s.name ∧
    (completionCheck hash vfail s file).state.chunk_size = s.chunk_size ∧
    (completionCheck hash vfail s file).state.chunk_sha256 = s.chunk_sha256 ∧
    (completionCheck hash vfail s file).file = file := by
  rcases completionCheck_spec hash vfail s file with
      ⟨heq, -⟩ | ⟨-, -, -, heq⟩ | ⟨-, -, -, -, heq⟩ | ⟨-, -, -, -, heq⟩ <;> rw [heq]
  · exact ⟨rfl, rfl, rfl, rfl, rfl, rfl, rfl⟩
  · exact ⟨rfl, rfl, rfl, rfl, rfl, rfl, rfl⟩
  · exact ⟨rfl, rfl, rfl, rfl, rfl, rfl, rfl⟩
  · rcases emitAck_spec { s with complete := true } file with ⟨-, he2⟩ | ⟨-, he2⟩ <;> rw [he2]
    · exact ⟨rfl, rfl, rfl, rfl, rfl, rfl, rfl⟩
    · exact ⟨rfl, rfl, rfl, rfl, rfl, rfl, rfl⟩

/-- When no ack is emitted, `completionCheck` leaves `ack_sent` unchanged. -/
lemma completionCheck_no_ack (hash : List Nat → Nat) (vfail : Bool) (s : RState)
    (file : List Nat) (h : OutMsg.ack ∉ (completionCheck hash vfail s file).out) :
    (completionCheck hash vfail s file).state.ack_sent = s.ack_sent := by
  rcases completionCheck_spec hash vfail s file with
      ⟨heq, -⟩ | ⟨-, -, -, heq⟩ | ⟨-, -, -, -, heq⟩ | ⟨-, -, -, -, heq⟩ <;> rw [heq]
  rcases emitAck_spec { s with complete := true } file with ⟨-, he2⟩ | ⟨-, he2⟩
  · rw [he2]
  · rw [heq, he2] at h
    simp at h

/-- The completion check never clears an already-set `complete` flag (the
reverting branch is guarded by `not state["complete"]`). -/
lemma completionCheck_complete_mono (hash : List Nat → Nat) (vfail : Bool) (s : RState)
    (file : List Nat) (hc : s.complete = true) :
    (completionCheck hash vfail s file).state.complete = true := by
  rcases completionCheck_spec hash vfail s file with
      ⟨heq, -⟩ | ⟨-, hcf, -, -⟩ | ⟨-, hcf, -, -, -⟩ | ⟨-, hcf, -, -, -⟩
  · rw [heq]
    exact hc
  · rw [hc] at hcf
    exact absurd hcf (by simp)
  · rw [hc] at hcf
    exact absurd hcf (by simp)
  · rw [hc] at hcf
    exact absurd hcf (by simp)

/-- A chunk step never changes the manifest fields of the state. -/
lemma step_chunk_frame (hash : List Nat → Nat) (s : RState) (file : List Nat)
    (idx : Int) (blob : List Nat) (vfail : Bool) :
    (step hash s file (InMsg.chunk idx blob) vfail).state.total_chunks = s.total_chunks ∧
    (step hash s file (InMsg.chunk idx blob) vfail).state.file_sha256 = s.file_sha256 ∧
    (step hash s file (InMsg.chunk idx blob) vfail).state.name = s.name ∧
    (step hash s file (InMsg.chunk idx blob) vfail).state.chunk_size = s.chunk_size ∧
    (step hash s file (InMsg.chunk idx blob) vfail).state.chunk_sha256 = s.chunk_sha256 := by
  have hstep : step hash s file (InMsg.chunk idx blob) vfail =
      handleChunk hash idx blob vfail s file := rfl
  rw [hstep]
  rcases handleChunk_spec hash idx blob vfail s file with he | he | he | he <;> rw [he]
  · exact ⟨rfl, rfl, rfl, rfl, rfl⟩
  · exact ⟨rfl, rfl, rfl, rfl, rfl⟩
  · exact ⟨rfl, rfl, rfl, rfl, rfl⟩
  · obtain ⟨f1, f2, f3, f4, f5, f6, f7⟩ := completionCheck_frame hash vfail
      { s with received := if idx ∈ s.received then s.received else s.received ++ [idx] }
      (writeAt file (idx * strideOf s blob).toNat blob)
    exact ⟨by simpa using f1, by simpa using f2, by simpa using f4, by simpa using f5,
      by simpa using f6⟩

/-- A step that emits no ack leaves `ack_sent` unchanged. -/
lemma step_no_ack (hash : List Nat → Nat) (s : RState) (file : List Nat) (m : InMsg)
    (vfail : Bool) (h : OutMsg.ack ∉ (step hash s file m vfail).out) :
    (step hash s file m vfail).state.ack_sent = s.ack_sent := by
  cases m with
  | meta mm => simp [step, handleMeta]
  | statusRequest => rfl
  | other => rfl
  | chunk idx blob =>
    have hstep : step hash s file (InMsg.chunk idx blob) vfail =
        handleChunk hash idx blob vfail s file := rfl
    rw [hstep] at h ⊢
    rcases handleChunk_spec hash idx blob vfail s file with he | he | he | he <;> rw [he] at h ⊢
    have := completionCheck_no_ack hash vfail
      { s with received := if idx ∈ s.received then s.received else s.received ++ [idx] }
      (writeAt file (idx * strideOf s blob).toNat blob) h
    simpa using this

/-- No step ever clears `complete`. -/
lemma step_complete_mono (hash : List Nat → Nat) (s : RState) (file : List Nat) (m : InMsg)
    (vfail : Bool) (hc : s.complete = true) :
    (step hash s file m vfail).state.complete = true := by
  cases m with
  | meta mm => exact hc
  | statusRequest => exact hc
  | other => exact hc
  | chunk idx blob =>
    have hstep : step hash s file (InMsg.chunk idx blob) vfail =
        handleChunk hash idx blob vfail s file := rfl
    rw [hstep]
    rcases handleChunk_spec hash idx blob vfail s file with he | he | he | he <;> rw [he]
    · exact hc
    · exact hc
    · exact hc
    · exact completionCheck_complete_mono hash vfail _ _ (by simpa using hc)

/-- The step of a meta message: manifest fields are overwritten with the
message's, everything else in the state is untouched, and one status is
emitted. -/
lemma step_meta_fields (hash : List Nat → Nat) (s : RState) (file : List Nat)
    (mm : MetaMsg) (vfail : Bool) :
    (step hash s file (InMsg.meta mm) vfail).state.total_chunks = some mm.total_chunks ∧
    (step hash s file (InMsg.meta mm) vfail).state.file_sha256 = mm.file_sha256 ∧
    (step hash s file (InMsg.meta mm) vfail).state.ack_sent = s.ack_sent ∧
    (step hash s file (InMsg.meta mm) vfail).state.complete = s.complete ∧
    (step hash s file (InMsg.meta mm) vfail).state.received = s.received ∧
    (step hash s file (InMsg.meta mm) vfail).file = file := by
  exact ⟨rfl, rfl, rfl, rfl, rfl, rfl⟩

/-- Run-level invariant for the ack discipline: the number of acks emitted so
far is 0 or 1 according to the persisted `ack_sent` flag, `ack_sent` implies
`complete`, and a committed manifest always carries a `file_sha256` (the last
fact holds when every inbound manifest carries one). -/
def AckInv (r : RunRes) : Prop :=
  r.out.count OutMsg.ack = (if r.state.ack_sent = true then 1 else 0) ∧
  (r.state.ack_sent = true → r.state.complete = true) ∧
  (Option.isSome r.state.total_chunks → Option.isSome r.state.file_sha256)

lemma step_preserves_ackInv (hash : List Nat → Nat) (s : RState) (file : List Nat)
    (out0 : List OutMsg) (m : InMsg) (vfail : Bool)
    (hmeta : ∀ mm, m = InMsg.meta mm → Option.isSome mm.file_sha256)
    (hInv : AckInv ⟨s, file, out0⟩) :
    AckInv ⟨(step hash s file m vfail).state, (step hash s file m vfail).file,
      out0 ++ (step hash s file m vfail).out⟩ := by
  obtain ⟨hcount, hac, hts⟩ := hInv
  dsimp only at hcount hac hts
  by_cases hack : OutMsg.ack ∈ (step hash s file m vfail).out
  · obtain ⟨h1, h2, h3, h4, h5, h6, h7, h8⟩ := step_ack hash s file m vfail hack
    refine ⟨?_, fun _ => h3, ?_⟩
    · dsimp only
      rw [List.count_append, h4]
      rw [h1] at hcount
      simp only [Bool.false_eq_true, if_false] at hcount
      simp [hcount, h2]
    · dsimp only
      rw [h5, h6]
      exact hts
  · have hnc : (step hash s file m vfail).out.count OutMsg.ack = 0 :=
      List.count_eq_zero.mpr hack
    have hA : (step hash s file m vfail).state.ack_sent = s.ack_sent :=
      step_no_ack hash s file m vfail hack
    refine ⟨?_, ?_, ?_⟩
    · dsimp only
      rw [List.count_append, hnc, hA, hcount]
      simp
    · intro hx
      rw [hA] at hx
      exact step_complete_mono hash s file m vfail (hac hx)
    · dsimp only
      cases m with
      | meta mm =>
        obtain ⟨hT, hS, -⟩ := step_meta_fields hash s file mm vfail
        rw [hT, hS]
        intro _
        exact hmeta mm rfl
      | chunk idx blob =>
        obtain ⟨hT, hS, -⟩ := step_chunk_frame hash s file idx blob vfail
        rw [hT, hS]
        exact hts
      | statusRequest => exact hts
      | other => exact hts

lemma runFrom_ackInv (hash : List Nat → Nat) (ms : List (InMsg × Bool)) (r : RunRes)
    (hm : ∀ p ∈ ms, ∀ mm, p.1 = InMsg.meta mm → Option.isSome mm.file_sha256)
    (h : AckInv r) : AckInv (runFrom hash r ms) := by
  induction ms generalizing r with
  | nil => exact h
  | cons p rest ih =>
    obtain ⟨m, vf⟩ := p
    refine ih _ (fun q hq => hm q (List.mem_cons_of_mem _ hq)) ?_
    exact step_preserves_ackInv hash r.state r.file r.out m vf
      (fun mm hmm => hm (m, vf) (List.mem_cons_self _ _) mm hmm) h

lemma run_ackInv (hash : List Nat → Nat) (ms : List (InMsg × Bool))
    (hm : ∀ p ∈ ms, ∀ mm, p.1 = InMsg.meta mm → Option.isSome mm.file_sha256) :
    AckInv (run hash ms) := by
  refine runFrom_ackInv hash ms _ hm ?_
  exact ⟨rfl, by simp [initialState], by simp [initialState]⟩

/-- A manifest message carries a `file_sha256` (true of every manifest the
sender produces; the schema makes the field mandatory). -/
def metaHasSha : InMsg → Bool
  | InMsg.meta mm => Option.isSome mm.file_sha256
  | _ => true

/-- C1: for every sequence of inbound messages (whose manifests carry the
mandatory `file_sha256`), the receiver emits the ack at most once — guarded by
the persisted `ack_sent` flag — an ack is emitted only when the recomputed
digest of the on-disk data file equals the manifest's `file_sha256`, and
`ack_sent` implies `complete`. -/
theorem ack_once_only_after_digest_match (hash : List Nat → Nat)
    (ms : List (InMsg × Bool)) (hm : ∀ p ∈ ms, metaHasSha p.1 = true) :
    (run hash ms).out.count OutMsg.ack ≤ 1 ∧
    ((run hash ms).state.ack_sent = true → (run hash ms).state.complete = true) ∧
    (∀ m vfail, OutMsg.ack ∈ (step hash (run hash ms).state (run hash ms).file m vfail).out →
      ∃ h, (step hash (run hash ms).state (run hash ms).file m vfail).state.file_sha256 = some h ∧
        hash (step hash (run hash ms).state (run hash ms).file m vfail).file = h) := by
  have hm' : ∀ p ∈ ms, ∀ mm, p.1 = InMsg.meta mm → Option.isSome mm.file_sha256 := by
    intro p hp mm hmm
    have := hm p hp
    rw [hmm] at this
    simpa [metaHasSha] using this
  obtain ⟨hcount, hac, hts⟩ := run_ackInv hash ms hm'
  refine ⟨?_, hac, ?_⟩
  · rw [hcount]
    split <;> omega
  · intro m vfail hackmem
    obtain ⟨h1, h2, h3, h4, h5, h6, h7, h8⟩ :=
      step_ack hash (run hash ms).state (run hash ms).file m vfail hackmem
    rcases h8 with hnone | hsome
    · obtain ⟨t, ht⟩ := h7
      have hsha : Option.isSome (run hash ms).state.file_sha256 := hts (by rw [ht]; rfl)
      rw [hnone] at hsha
      exact absurd hsha (by simp)
    · exact ⟨hash (step hash (run hash ms).state (run hash ms).file m vfail).file,
        by rw [h6, hsome], rfl⟩

theorem ack_once_only_after_digest_match_witness :
    (run encL [(InMsg.meta ⟨"f", 1, 1, 1, some (encL [7]), some [encL [7]]⟩, false),
      (InMsg.chunk 0 [7], false)]).out.count OutMsg.ack ≤ 1 :=
  (ack_once_only_after_digest_match encL _ (by decide)).1

/-- C4: a chunk arriving before the manifest (persisted `name` and
`chunk_size` still unset) is dropped whole: no bytes are written to the data
file, the index is not added to `received`, and nothing is emitted — the
transfer relies on the later retry.  (In the source this happens because
`_data_path` raises `TypeError` on the `None` name before the write and
`_on_message` swallows the exception.) -/
theorem chunk_before_manifest_dropped (hash : List Nat → Nat) (idx : Int)
    (blob : List Nat) (vfail : Bool) (s : RState) (file : List Nat)
    (hname : s.name = none) (hcs : s.chunk_size = none) :
    step hash s file (InMsg.chunk idx blob) vfail = ⟨s, file, []⟩ := by
  have hstep : step hash s file (InMsg.chunk idx blob) vfail =
      handleChunk hash idx blob vfail s file := rfl
  rw [hstep]
  unfold handleChunk
  rw [hname]

theorem chunk_before_manifest_dropped_witness :
    initialState.name = none ∧ initialState.chunk_size = none ∧
    step encL initialState [] (InMsg.chunk 3 [1, 2]) false = ⟨initialState, [], []⟩ :=
  ⟨rfl, rfl, chunk_before_manifest_dropped encL 3 [1, 2] false initialState [] rfl rfl⟩

/-- C10: every `_emit_status` publishes a retry exactly when the computed
missing list is non-empty; with no manifest (`total_chunks` unknown) the
missing list is empty, the status carries `total = null` and no retry is ever
published; and every missing list actually sent is the ascending list
truncated to its first 500 elements. -/
theorem status_retry_discipline (s : RState) :
    ((∃ l, OutMsg.retry l ∈ emitStatus s) ↔ missingOf s ≠ []) ∧
    (s.total_chunks = none →
      emitStatus s = [OutMsg.status s.received.length none [] s.complete]) ∧
    (∀ rc tot miss comp, OutMsg.status rc tot miss comp ∈ emitStatus s →
      miss = (missingOf s).take 500 ∧ miss.Pairwise (fun a b => a < b)) ∧
    (∀ l, OutMsg.retry l ∈ emitStatus s → l = (missingOf s).take 500 ∧
      l.Pairwise (fun a b => a < b)) := by
  have hpw : ((missingOf s).take 500).Pairwise (fun a b => a < b) :=
    (missingOf_pairwise s).sublist (List.take_sublist 500 (missingOf s))
  refine ⟨⟨?_, ?_⟩, ?_, ?_, ?_⟩
  · rintro ⟨l, hl⟩ hemp
    unfold emitStatus at hl
    rw [if_pos hemp] at hl
    simp at hl
  · intro hne
    refine ⟨(missingOf s).take 500, ?_⟩
    unfold emitStatus
    rw [if_neg hne]
    simp
  · intro h0
    simp [emitStatus, missingOf, h0]
  · intro rc tot miss comp hmem
    unfold emitStatus at hmem
    rcases List.mem_cons.mp hmem with he | hrest
    · injection he with e1 e2 e3 e4
      exact ⟨e3, e3 ▸ hpw⟩
    · revert hrest
      split
      · intro hrest
        simp at hrest
      · intro hrest
        simp at hrest
  · intro l hmem
    unfold emitStatus at hmem
    rcases List.mem_cons.mp hmem with he | hrest
    · exact absurd he (by simp)
    · revert hrest
      split
      · intro hrest
        simp at hrest
      · intro hrest
        simp at hrest
        exact ⟨hrest, hrest ▸ hpw⟩

theorem status_retry_discipline_witness :
    emitStatus initialState = [OutMsg.status 0 none [] false] :=
  (status_retry_discipline initialState).2.1 rfl

/-- The only way a step changes `received`: a chunk message whose index was
not yet present appends it at the end. -/
lemma step_received (hash : List Nat → Nat) (s : RState) (file : List Nat) (m : InMsg)
    (vfail : Bool) :
    (step hash s file m vfail).state.received = s.received ∨
    ∃ idx blob, m = InMsg.chunk idx blob ∧ idx ∉ s.received ∧
      (step hash s file m vfail).state.received = s.received ++ [idx] := by
  cases m with
  | meta mm => exact Or.inl rfl
  | statusRequest => exact Or.inl rfl
  | other => exact Or.inl rfl
  | chunk idx blob =>
    have hstep : step hash s file (InMsg.chunk idx blob) vfail =
        handleChunk hash idx blob vfail s file := rfl
    rw [hstep]
    rcases handleChunk_spec hash idx blob vfail s file with he | he | he | he <;> rw [he]
    · exact Or.inl rfl
    · exact Or.inl rfl
    · exact Or.inl rfl
    · obtain ⟨-, -, f3, -⟩ := completionCheck_frame hash vfail
        { s with received := if idx ∈ s.received then s.received else s.received ++ [idx] }
        (writeAt file (idx * strideOf s blob).toNat blob)
      by_cases hidx : idx ∈ s.received
      · refine Or.inl ?_
        rw [f3]
        simp [hidx]
      · refine Or.inr ⟨idx, blob, rfl, hidx, ?_⟩
        rw [f3]
        simp [hidx]

/-- A chunk message whose index lies in `{0 … T-1}`. -/
def chunkInRange (T : Int) : InMsg → Bool
  | InMsg.chunk idx _ => decide (0 ≤ idx ∧ idx < T)
  | _ => true

/-- A manifest message announcing `total_chunks = T`. -/
def metaTotalIs (T : Int) : InMsg → Bool
  | InMsg.meta mm => decide (mm.total_chunks = T)
  | _ => true

/-- Invariant for C2: `received` has no duplicates and stays inside
`{0 … T-1}`, and the committed `total_chunks` (if any) is `T`. -/
def ReceivedInv (T : Int) (s : RState) : Prop :=
  s.received.Nodup ∧ (∀ i ∈ s.received, 0 ≤ i ∧ i < T) ∧
  (s.total_chunks = none ∨ s.total_chunks = some T)

lemma step_preserves_receivedInv (T : Int) (hash : List Nat → Nat) (s : RState)
    (file : List Nat) (m : InMsg) (vfail : Bool)
    (hra : chunkInRange T m = true) (hmt : metaTotalIs T m = true)
    (hInv : ReceivedInv T s) : ReceivedInv T (step hash s file m vfail).state := by
  obtain ⟨hnd, hrange, htot⟩ := hInv
  have hrecv := step_received hash s file m vfail
  have hR : (step hash s file m vfail).state.received.Nodup ∧
      ∀ i ∈ (step hash s file m vfail).state.received, 0 ≤ i ∧ i < T := by
    rcases hrecv with hre | ⟨idx, blob, hm, hnin, hre⟩
    · rw [hre]
      exact ⟨hnd, hrange⟩
    · rw [hre]
      have hidx : 0 ≤ idx ∧ idx < T := by
        rw [hm] at hra
        exact of_decide_eq_true hra
      constructor
      · simp [List.nodup_append, hnd, hnin]
      · intro i hi
        rcases List.mem_append.mp hi with hi | hi
        · exact hrange i hi
        · rw [List.mem_singleton.mp hi]
          exact hidx
  refine ⟨hR.1, hR.2, ?_⟩
  cases m with
  | meta mm =>
    obtain ⟨hT, -⟩ := step_meta_fields hash s file mm vfail
    rw [hT]
    exact Or.inr (by rw [of_decide_eq_true hmt])
  | chunk idx blob =>
    obtain ⟨hT, -⟩ := step_chunk_frame hash s file idx blob vfail
    rw [hT]
    exact htot
  | statusRequest => exact htot
  | other => exact htot

lemma runFrom_receivedInv (T : Int) (hash : List Nat → Nat) (ms : List (InMsg × Bool))
    (r : RunRes) (hra : ∀ p ∈ ms, chunkInRange T p.1 = true)
    (hmt : ∀ p ∈ ms, metaTotalIs T p.1 = true)
    (h : ReceivedInv T r.state) : ReceivedInv T (runFrom hash r ms).state := by
  induction ms generalizing r with
  | nil => exact h
  | cons p rest ih =>
    obtain ⟨m, vf⟩ := p
    refine ih _ (fun q hq => hra q (List.mem_cons_of_mem _ hq))
      (fun q hq => hmt q (List.mem_cons_of_mem _ hq)) ?_
    exact step_preserves_receivedInv T hash r.state r.file m vf
      (hra (m, vf) (List.mem_cons_self _ _)) (hmt (m, vf) (List.mem_cons_self _ _)) h

/-- A step keeps `received` duplicate-free, for every message whatsoever: the
append in `_handle_chunk` is guarded by `if idx not in state["received"]`. -/
lemma step_preserves_nodup (hash : List Nat → Nat) (s : RState) (file : List Nat)
    (m : InMsg) (vfail : Bool) (h : s.received.Nodup) :
    (step hash s file m vfail).state.received.Nodup := by
  rcases step_received hash s file m vfail with hre | ⟨idx, blob, -, hnin, hre⟩
  · rw [hre]
    exact h
  · rw [hre]
    simp [List.nodup_append, h, hnin]

lemma runFrom_nodup (hash : List Nat → Nat) (ms : List (InMsg × Bool)) (r : RunRes)
    (h : r.state.received.Nodup) : (runFrom hash r ms).state.received.Nodup := by
  induction ms generalizing r with
  | nil => exact h
  | cons p rest ih =>
    obtain ⟨m, vf⟩ := p
    exact ih _ (step_preserves_nodup hash r.state r.file m vf h)

/-- C2 (amended): the persisted `received` list never contains duplicate
indices, over every sequence of inbound messages whatsoever; and provided
every chunk message carries an index in `{0 … T-1}` — the code never validates
indices — and every manifest announces `total_chunks = T`, `received` stays a
subset of `{0 … T-1}` and the committed `total_chunks` is `none` or `T`. -/
theorem received_nodup_and_in_range (T : Int) (hash : List Nat → Nat)
    (ms : List (InMsg × Bool)) :
    (run hash ms).state.received.Nodup ∧
    ((∀ p ∈ ms, chunkInRange T p.1 = true) → (∀ p ∈ ms, metaTotalIs T p.1 = true) →
      (∀ i ∈ (run hash ms).state.received, 0 ≤ i ∧ i < T) ∧
      ((run hash ms).state.total_chunks = none ∨
        (run hash ms).state.total_chunks = some T)) := by
  constructor
  · exact runFrom_nodup hash ms _ List.nodup_nil
  · intro hra hmt
    have hInv : ReceivedInv T (run hash ms).state := by
      refine runFrom_receivedInv T hash ms _ hra hmt ?_
      refine ⟨List.nodup_nil, ?_, Or.inl rfl⟩
      intro i hi
      simp [initialState] at hi
    exact ⟨hInv.2.1, hInv.2.2⟩

theorem received_nodup_and_in_range_witness :
    (run encL [(InMsg.meta ⟨"f", 2, 1, 2, some 0, some [encL [7], encL [8]]⟩, false),
      (InMsg.chunk 1 [8], false)]).state.received.Nodup ∧
    (∀ i ∈ (run encL [(InMsg.meta ⟨"f", 2, 1, 2, some 0, some [encL [7], encL [8]]⟩, false),
      (InMsg.chunk 1 [8], false)]).state.received, 0 ≤ i ∧ i < 2) ∧
    ((run encL [(InMsg.meta ⟨"f", 2, 1, 2, some 0, some [encL [7], encL [8]]⟩, false),
      (InMsg.chunk 1 [8], false)]).state.total_chunks = none ∨
     (run encL [(InMsg.meta ⟨"f", 2, 1, 2, some 0, some [encL [7], encL [8]]⟩, false),
      (InMsg.chunk 1 [8], false)]).state.total_chunks = some 2) :=
  ⟨(received_nodup_and_in_range 2 encL _).1,
    ((received_nodup_and_in_range 2 encL _).2 (by decide) (by decide)).1,
    ((received_nodup_and_in_range 2 encL _).2 (by decide) (by decide)).2⟩

/-- C2 (counterexample): after the manifest announced `total_chunks = 1`, a
chunk message with the out-of-range index 1 (≥ total_chunks, so the hash check
at `idx < len(chunk_sha256)` is skipped) is appended verbatim to `received`,
which then is not a subset of `{0}`. -/
theorem received_out_of_range_counterexample :
    (run encL [(InMsg.meta ⟨"f", 1, 1, 1, some 0, some [encL [9]]⟩, false),
      (InMsg.chunk 1 [5], false)]).state.total_chunks = some 1 ∧
    (run encL [(InMsg.meta ⟨"f", 1, 1, 1, some 0, some [encL [9]]⟩, false),
      (InMsg.chunk 1 [5], false)]).state.received = [1] ∧
    ¬ (∀ i ∈ (run encL [(InMsg.meta ⟨"f", 1, 1, 1, some 0, some [encL [9]]⟩, false),
      (InMsg.chunk 1 [5], false)]).state.received, 0 ≤ i ∧ i < 1) := by decide

/-- C3 (amended): if processing a message makes `complete` go from false to
true, the whole-file re-hash did not raise, and the state records a
`file_sha256`, then at the end of that message the chunk count has reached
`total_chunks` and the recomputed digest of the data file equals
`file_sha256`.  (The unamended claim fails: `complete = true` is persisted
before verification, and the exception path leaves it set with an unverified
file — see the counterexample.) -/
theorem complete_transition_implies_digest_match (hash : List Nat → Nat) (s : RState)
    (file : List Nat) (m : InMsg) (h0 : Nat)
    (hc : s.complete = false) (hsha : s.file_sha256 = some h0)
    (hcomp : (step hash s file m false).state.complete = true) :
    (∃ t, (step hash s file m false).state.total_chunks = some t ∧
      t ≤ ((step hash s file m false).state.received.length : Int)) ∧
    hash (step hash s file m false).file = h0 := by
  cases m with
  | meta mm =>
    obtain ⟨-, -, -, hcm, -, -⟩ := step_meta_fields hash s file mm false
    rw [hcm, hc] at hcomp
    exact absurd hcomp (by simp)
  | statusRequest =>
    rw [show (step hash s file InMsg.statusRequest false).state = s from rfl, hc] at hcomp
    exact absurd hcomp (by simp)
  | other =>
    rw [show (step hash s file InMsg.other false).state = s from rfl, hc] at hcomp
    exact absurd hcomp (by simp)
  | chunk idx blob =>
    have hstep : step hash s file (InMsg.chunk idx blob) false =
        handleChunk hash idx blob false s file := rfl
    rw [hstep] at hcomp ⊢
    rcases handleChunk_spec hash idx blob false s file with he | he | he | he <;>
      rw [he] at hcomp ⊢
    · exact absurd (hc ▸ hcomp) (by simp)
    · exact absurd (hc ▸ hcomp) (by simp)
    · exact absurd (hc ▸ hcomp) (by simp)
    · rcases completionCheck_spec hash false
        { s with received := if idx ∈ s.received then s.received else s.received ++ [idx] }
        (writeAt file (idx * strideOf s blob).toNat blob) with
        ⟨heq, -⟩ | ⟨-, -, hvf, -⟩ | ⟨-, -, -, -, heq⟩ | ⟨hT, -, -, hsh, heq⟩
      · rw [heq] at hcomp
        exact absurd (hc ▸ hcomp) (by simp)
      · exact absurd hvf (by simp)
      · rw [heq] at hcomp
        exact absurd hcomp (by simp)
      · rw [heq] at hcomp ⊢
        have hsh' : hash (writeAt file (idx * strideOf s blob).toNat blob) = h0 := by
          rcases hsh with hn | hs
          · rw [hsha] at hn
            exact absurd hn (by simp)
          · rw [hsha] at hs
            exact (Option.some_inj.mp hs).symm
        rcases emitAck_spec
            { name := s.name, size := s.size, chunk_size := s.chunk_size,
              total_chunks := s.total_chunks, file_sha256 := s.file_sha256,
              chunk_sha256 := s.chunk_sha256,
              received := if idx ∈ s.received then s.received else s.received ++ [idx],
              complete := true, ack_sent := s.ack_sent }
            (writeAt file (idx * strideOf s blob).toNat blob) with ⟨-, he2⟩ | ⟨-, he2⟩ <;>
          rw [he2]
        · obtain ⟨t, ht, hle⟩ := hT
          exact ⟨⟨t, by simpa using ht, by simpa using hle⟩, hsh'⟩
        · obtain ⟨t, ht, hle⟩ := hT
          exact ⟨⟨t, by simpa using ht, by simpa using hle⟩, hsh'⟩

theorem complete_transition_implies_digest_match_witness :
    (∃ t, (step encL ⟨some "f", some 1, some 1, some 1, some (encL [7]), some [encL [7]],
        [], false, false⟩ [] (InMsg.chunk 0 [7]) false).state.total_chunks = some t ∧
      t ≤ (((step encL ⟨some "f", some 1, some 1, some 1, some (encL [7]), some [encL [7]],
        [], false, false⟩ [] (InMsg.chunk 0 [7]) false).state.received.length : Nat) : Int)) ∧
    encL (step encL ⟨some "f", some 1, some 1, some 1, some (encL [7]), some [encL [7]],
        [], false, false⟩ [] (InMsg.chunk 0 [7]) false).file = encL [7] :=
  complete_transition_implies_digest_match encL
    ⟨some "f", some 1, some 1, some 1, some (encL [7]), some [encL [7]], [], false, false⟩
    [] (InMsg.chunk 0 [7]) (encL [7]) rfl rfl (by decide)

/-- C3 (counterexample): the claim as stated is false.  With a manifest whose
`file_sha256` (0) does not match the file, the completion check persists
`complete = true` before verifying; when the whole-file re-hash raises (the
`except` branch), the run ends with `complete = true` although the data
file's digest (`encL [7] ≠ 0`) does not match `file_sha256`. -/
theorem complete_without_digest_match_counterexample :
    (run encL [(InMsg.meta ⟨"f", 1, 1, 1, some 0, some [encL [7]]⟩, false),
      (InMsg.chunk 0 [7], true)]).state.complete = true ∧
    (run encL [(InMsg.meta ⟨"f", 1, 1, 1, some 0, some [encL [7]]⟩, false),
      (InMsg.chunk 0 [7], true)]).state.file_sha256 = some 0 ∧
    encL (run encL [(InMsg.meta ⟨"f", 1, 1, 1, some 0, some [encL [7]]⟩, false),
      (InMsg.chunk 0 [7], true)]).file ≠ 0 := by decide

/-- C5 (code evaluated at the failing input): all chunks received but the
whole-file digest disagrees with the manifest (`encL [7] ≠ 0`).  The receiver
clears `complete` and emits a status — whose `missing` list is empty, since
every index is in `received` — and therefore publishes NO retry request: the
only retry in the whole trace is the one from the meta arrival.  The code's
own log message claims it is "requesting retry of all chunks". -/
theorem whole_file_mismatch_emits_no_retry :
    (run encL [(InMsg.meta ⟨"f", 1, 1, 1, some 0, some [encL [7]]⟩, false),
      (InMsg.chunk 0 [7], false)]).out =
      [OutMsg.status 0 (some 1) [0] false, OutMsg.retry [0],
       OutMsg.status 1 (some 1) [] false] ∧
    (run encL [(InMsg.meta ⟨"f", 1, 1, 1, some 0, some [encL [7]]⟩, false),
      (InMsg.chunk 0 [7], false)]).state.complete = false ∧
    (run encL [(InMsg.meta ⟨"f", 1, 1, 1, some 0, some [encL [7]]⟩, false),
      (InMsg.chunk 0 [7], false)]).state.received = [0] := by decide

/-- C6 (code evaluated at the failing input): `send_file` never validates
`chunk_size`.  A missing file and `chunk_size = 0` do fail fast with no
messages (`FileNotFoundError` / `ZeroDivisionError` before any publish), but a
negative `chunk_size` publishes a manifest with `total_chunks = -1`, one chunk
holding the whole file (Python's `read(-1)`), and the status probe, returning
normally. -/
theorem negative_chunk_size_still_publishes :
    send_file encL (some [7, 8, 9]) (-1) =
      Except.ok [SendMsg.meta ⟨"f", 3, -1, -1, some (encL [7, 8, 9]), some [encL [7, 8, 9]]⟩,
        SendMsg.chunk 0 (encL [7, 8, 9]) [7, 8, 9], SendMsg.statusProbe] ∧
    send_file encL none (-1) = Except.error SendErr.fileNotFound ∧
    send_file encL (some [7, 8, 9]) 0 = Except.error SendErr.zeroDivision :=
  ⟨rfl, rfl, rfl⟩

/-- C7 (code evaluated at the failing input): for an empty file the sender
publishes the manifest (`total_chunks = 0`) and the status probe and no
chunks; but the receiver never emits an ack — `_handle_meta` only emits a
status, and the ack lives exclusively in `_handle_chunk`, which never runs
because there are no chunks.  `complete` and `ack_sent` stay false. -/
theorem empty_file_receiver_never_acks :
    senderManifest encL [] 4 = ⟨"f", 0, 4, 0, some (encL []), some []⟩ ∧
    send_file encL (some []) 4 =
      Except.ok [SendMsg.meta ⟨"f", 0, 4, 0, some (encL []), some []⟩, SendMsg.statusProbe] ∧
    (run encL [(InMsg.meta ⟨"f", 0, 4, 0, some (encL []), some []⟩, false),
      (InMsg.statusRequest, false)]).out.count OutMsg.ack = 0 ∧
    (run encL [(InMsg.meta ⟨"f", 0, 4, 0, some (encL []), some []⟩, false),
      (InMsg.statusRequest, false)]).state.ack_sent = false ∧
    (run encL [(InMsg.meta ⟨"f", 0, 4, 0, some (encL []), some []⟩, false),
      (InMsg.statusRequest, false)]).state.complete = false := by
  refine ⟨?_, ?_, by decide, by decide, by decide⟩
  · simp [senderManifest, pyReads, chunksOf]
  · simp [send_file, senderManifest, pyReads, chunksOf, chunkMsgsFrom]

/-- Arithmetic behind the read loop: one more read of `cs` bytes bumps the
ceiling-divided chunk count by one. -/
lemma ceil_div_succ (L cs : Nat) (hcs : 1 ≤ cs) (hL : 1 ≤ L) :
    (L + cs - 1) / cs = (L - cs + cs - 1) / cs + 1 := by
  have hpos : 0 < cs := hcs
  have h1 : L + cs - 1 = (L - 1) + cs := by omega
  by_cases hle : L ≤ cs
  · have h2 : L - cs + cs - 1 = cs - 1 := by omega
    rw [h1, Nat.add_div_right _ hpos, h2]
    rw [Nat.div_eq_of_lt (by omega : L - 1 < cs), Nat.div_eq_of_lt (by omega : cs - 1 < cs)]
  · have h3 : L - cs + cs - 1 = (L - cs - 1) + cs := by omega
    have h4 : L - 1 = (L - cs - 1) + cs := by omega
    rw [h1, Nat.add_div_right _ hpos, h4, Nat.add_div_right _ hpos, h3,
      Nat.add_div_right _ hpos]

/-- The sequence of `f.read(cs)` results for `cs ≥ 1`: exactly
`⌈length/cs⌉` reads, the `i`-th being bytes `[i·cs, i·cs + cs)`. -/
lemma chunksOf_eq (cs : Nat) (hcs : 1 ≤ cs) (bs : List Nat) :
    chunksOf cs bs =
      (List.range ((bs.length + cs - 1) / cs)).map (fun i => (bs.drop (i * cs)).take cs) := by
  have H : ∀ (n : Nat) (bs : List Nat), bs.length ≤ n → chunksOf cs bs =
      (List.range ((bs.length + cs - 1) / cs)).map (fun i => (bs.drop (i * cs)).take cs) := by
    intro n
    induction n with
    | zero =>
      intro bs hb
      have hnil : bs = [] := List.eq_nil_of_length_eq_zero (Nat.le_zero.mp hb)
      subst hnil
      rw [chunksOf]
      simp [Nat.div_eq_of_lt (by omega : cs - 1 < cs)]
    | succ n ih =>
      intro bs hb
      by_cases hbs : bs = []
      · subst hbs
        rw [chunksOf]
        simp [Nat.div_eq_of_lt (by omega : cs - 1 < cs)]
      · have hlen : 1 ≤ bs.length := List.length_pos.mpr hbs
        rw [chunksOf, if_neg (by simp [hbs]; omega)]
        rw [ih (bs.drop cs) (by simp [List.length_drop]; omega)]
        have harith : (bs.length + cs - 1) / cs = ((bs.drop cs).length + cs - 1) / cs + 1 := by
          rw [List.length_drop]
          exact ceil_div_succ bs.length cs hcs hlen
        rw [harith, List.range_succ_eq_map]
        simp only [List.map_cons, List.map_map]
        refine congrArg₂ List.cons (by simp) ?_
        refine List.map_congr_left ?_
        intro i hi
        simp only [Function.comp]
        rw [List.drop_drop]
        have : cs + i * cs = Nat.succ i * cs := by
          rw [Nat.succ_mul]
          omega
        rw [this]
  exact H bs.length bs le_rfl

/-- The chunk-publishing loop on an explicit list of reads: message `k`
carries index `i + k` and the `k`-th read with its digest. -/
lemma chunkMsgsFrom_range (hash : List Nat → Nat) (d : Nat) :
    ∀ (g : Nat → List Nat) (i : Nat),
      chunkMsgsFrom hash i ((List.range d).map g) =
        (List.range d).map (fun k => SendMsg.chunk (i + k) (hash (g k)) (g k)) := by
  induction d with
  | zero => intro g i; simp [chunkMsgsFrom]
  | succ d ih =>
    intro g i
    rw [List.range_succ_eq_map]
    simp only [List.map_cons, List.map_map]
    rw [chunkMsgsFrom]
    rw [show (List.map (g ∘ Nat.succ) (List.range d)) =
      (List.range d).map (fun k => g (k + 1)) from by
        refine List.map_congr_left ?_
        intro k hk
        simp [Function.comp, Nat.succ_eq_add_one]]
    rw [ih (fun k => g (k + 1)) (i + 1)]
    refine congrArg₂ List.cons (by simp) ?_
    refine List.map_congr_left ?_
    intro k hk
    simp only [Function.comp]
    have h1 : i + 1 + k = i + (k + 1) := by omega
    rw [h1]

/-- For a positive chunk size, the read loop is `chunksOf`. -/
lemma pyReads_pos (cs : Nat) (hcs : 1 ≤ cs) (bs : List Nat) :
    pyReads (cs : Int) bs = chunksOf cs bs := by
  unfold pyReads
  rw [if_neg (by omega : ¬ ((cs : Int) < 0))]
  simp

/-- C8: for every existing file and chunk_size ≥ 1, `send_file` publishes the
manifest first, then the chunks in ascending index order `0 … total_chunks-1`
(message `i` carrying bytes `[i·cs, i·cs+cs)` of the file with their digest),
then the status probe; the manifest's `total_chunks` is `⌈size/cs⌉` — the
least `n` with `size ≤ n·cs` — and `chunk_sha256` is exactly the
`total_chunks`-long list whose `i`-th entry is the digest of chunk `i`. -/
theorem sender_manifest_and_order (hash : List Nat → Nat) (file : List Nat) (cs : Nat)
    (hcs : 1 ≤ cs) :
    send_file hash (some file) (cs : Int) =
      Except.ok (SendMsg.meta (senderManifest hash file (cs : Int)) ::
        ((List.range ((file.length + cs - 1) / cs)).map
            (fun i => SendMsg.chunk i (hash ((file.drop (i * cs)).take cs))
              ((file.drop (i * cs)).take cs)) ++ [SendMsg.statusProbe])) ∧
    (senderManifest hash file (cs : Int)).total_chunks =
      (((file.length + cs - 1) / cs : Nat) : Int) ∧
    (∀ n : Nat, (file.length + cs - 1) / cs ≤ n ↔ file.length ≤ n * cs) ∧
    (senderManifest hash file (cs : Int)).chunk_sha256 =
      some ((List.range ((file.length + cs - 1) / cs)).map
        (fun i => hash ((file.drop (i * cs)).take cs))) := by
  have hchunks : chunkMsgsFrom hash 0 (pyReads (cs : Int) file) =
      (List.range ((file.length + cs - 1) / cs)).map
        (fun i => SendMsg.chunk i (hash ((file.drop (i * cs)).take cs))
          ((file.drop (i * cs)).take cs)) := by
    rw [pyReads_pos cs hcs, chunksOf_eq cs hcs,
      chunkMsgsFrom_range hash _ (fun i => (file.drop (i * cs)).take cs) 0]
    refine List.map_congr_left ?_
    intro k hk
    rw [Nat.zero_add]
  refine ⟨?_, ?_, ?_, ?_⟩
  · unfold send_file
    dsimp only
    rw [if_neg (by omega : ¬ ((cs : Int) = 0))]
    rw [hchunks]
  · unfold senderManifest
    have hcast : (file.length : Int) + (cs : Int) - 1 = ((file.length + cs - 1 : Nat) : Int) := by
      omega
    rw [hcast]
    exact (Int.ofNat_fdiv _ _).symm
  · intro n
    rw [Nat.div_le_iff_le_mul_add_pred (by omega : 0 < cs)]
    rw [Nat.mul_comm cs n]
    omega
  · unfold senderManifest
    rw [pyReads_pos cs hcs, chunksOf_eq cs hcs, List.map_map]
    rfl

theorem sender_manifest_and_order_witness :
    send_file encL (some [1, 2, 3]) ((2 : Nat) : Int) =
      Except.ok (SendMsg.meta (senderManifest encL [1, 2, 3] ((2 : Nat) : Int)) ::
        ((List.range ((([1, 2, 3] : List Nat).length + 2 - 1) / 2)).map
            (fun i => SendMsg.chunk i (encL ((([1, 2, 3] : List Nat).drop (i * 2)).take 2))
              ((([1, 2, 3] : List Nat).drop (i * 2)).take 2)) ++ [SendMsg.statusProbe])) :=
  (sender_manifest_and_order encL [1, 2, 3] 2 (by decide)).1

/-! ### Pointwise description of the positional write -/

lemma writeAt_length (f : List Nat) (off : Nat) (b : List Nat) :
    (writeAt f off b).length = max f.length (off + b.length) := by
  unfold writeAt
  simp only [List.length_append, List.length_take, List.length_drop,
    List.length_replicate]
  omega

lemma padded_get? (f : List Nat) (off p : Nat) (h2 : p < f.length) :
    (f ++ List.replicate (off - f.length) 0).get? p = f.get? p :=
  List.get?_append h2

lemma writeAt_take_length (f : List Nat) (off : Nat) :
    ((f ++ List.replicate (off - f.length) 0).take off).length = off := by
  simp only [List.length_take, List.length_append, List.length_replicate]
  omega

lemma writeAt_get?_left (f : List Nat) (off : Nat) (b : List Nat) (p : Nat)
    (h1 : p < off) (h2 : p < f.length) : (writeAt f off b).get? p = f.get? p := by
  unfold writeAt
  rw [List.append_assoc]
  rw [List.get?_append (by rw [writeAt_take_length]; exact h1)]
  rw [List.get?_take h1]
  exact padded_get? f off p h2

lemma writeAt_get?_mid (f : List Nat) (off : Nat) (b : List Nat) (k : Nat)
    (hk : k < b.length) : (writeAt f off b).get? (off + k) = b.get? k := by
  unfold writeAt
  rw [List.append_assoc]
  rw [List.get?_append_right (by rw [writeAt_take_length]; omega)]
  rw [writeAt_take_length]
  have h1 : off + k - off = k := by omega
  rw [h1]
  exact List.get?_append hk

lemma writeAt_get?_right (f : List Nat) (off : Nat) (b : List Nat) (p : Nat)
    (h1 : off + b.length ≤ p) (h2 : p < f.length) :
    (writeAt f off b).get? p = f.get? p := by
  unfold writeAt
  rw [List.append_assoc]
  rw [List.get?_append_right (by rw [writeAt_take_length]; omega)]
  rw [writeAt_take_length]
  rw [List.get?_append_right (by omega)]
  rw [List.get?_drop]
  have h3 : off + b.length + (p - off - b.length) = p := by omega
  rw [h3]
  exact padded_get? f off p h2

lemma writeAt_get?_outside (f : List Nat) (off : Nat) (b : List Nat) (p : Nat)
    (h1 : p < off ∨ off + b.length ≤ p) (h2 : p < f.length) :
    (writeAt f off b).get? p = f.get? p := by
  rcases h1 with h1 | h1
  · exact writeAt_get?_left f off b p h1 h2
  · exact writeAt_get?_right f off b p h1 h2

/-! ### Chunk geometry of the source file -/

/-- `ceil(size / cs)`: the number of chunks the sender produces. -/
def totalN (S : List Nat) (cs : Nat) : Nat := (S.length + cs - 1) / cs

/-- Chunk `i` of the source: bytes `[i·cs, i·cs + cs)`. -/
def chunkSeg (S : List Nat) (cs i : Nat) : List Nat := (S.drop (i * cs)).take cs

lemma ceil_le_iff (L cs n : Nat) (hcs : 1 ≤ cs) : (L + cs - 1) / cs ≤ n ↔ L ≤ n * cs := by
  rw [Nat.div_le_iff_le_mul_add_pred (by omega : 0 < cs), Nat.mul_comm cs n]
  omega

lemma lt_total_mul (S : List Nat) (cs iN : Nat) (hcs : 1 ≤ cs) (h : iN < totalN S cs) :
    iN * cs < S.length := by
  by_contra hc
  push_neg at hc
  have := (ceil_le_iff S.length cs iN hcs).mpr hc
  unfold totalN at h
  omega

lemma chunkSeg_length (S : List Nat) (cs iN : Nat) :
    (chunkSeg S cs iN).length = min cs (S.length - iN * cs) := by
  unfold chunkSeg
  simp [List.length_take, List.length_drop]

lemma chunkSeg_get? (S : List Nat) (cs iN k : Nat) (hk : k < (chunkSeg S cs iN).length) :
    (chunkSeg S cs iN).get? k = S.get? (iN * cs + k) := by
  have hk' : k < cs := by
    have := chunkSeg_length S cs iN
    omega
  unfold chunkSeg
  rw [List.get?_take hk', List.get?_drop]

lemma seg_eq_of_pointwise (S : List Nat) (cs : Nat) (hcs : 1 ≤ cs) (file : List Nat)
    (iN : Nat) (hflen : file.length ≤ S.length) (hi : iN < totalN S cs)
    (hseg : ∀ k, k < (chunkSeg S cs iN).length →
      file.get? (iN * cs + k) = S.get? (iN * cs + k)) :
    (file.drop (iN * cs)).take cs = (S.drop (iN * cs)).take cs := by
  have hin : iN * cs < S.length := lt_total_mul S cs iN hcs hi
  have hlen := chunkSeg_length S cs iN
  apply List.ext_get?
  intro k
  by_cases hk : k < cs
  · rw [List.get?_take hk, List.get?_take hk, List.get?_drop, List.get?_drop]
    by_cases hk2 : k < (chunkSeg S cs iN).length
    · exact hseg k hk2
    · rw [List.get?_eq_none.mpr (by omega), List.get?_eq_none.mpr (by omega)]
  · rw [List.get?_eq_none.mpr (by simp [List.length_take]; omega),
      List.get?_eq_none.mpr (by simp [List.length_take]; omega)]

lemma writeAt_chunk_preserves (S : List Nat) (cs : Nat) (hcs : 1 ≤ cs) (file : List Nat)
    (hflen : file.length ≤ S.length) (iN : Nat) (hi : iN < totalN S cs) :
    (writeAt file (iN * cs) (chunkSeg S cs iN)).length ≤ S.length ∧
    (∀ k, k < (chunkSeg S cs iN).length →
      (writeAt file (iN * cs) (chunkSeg S cs iN)).get? (iN * cs + k) =
        S.get? (iN * cs + k)) ∧
    (∀ jN, jN ≠ iN → jN < totalN S cs →
      (∀ k, k < (chunkSeg S cs jN).length → file.get? (jN * cs + k) = S.get? (jN * cs + k)) →
      (∀ k, k < (chunkSeg S cs jN).length →
        (writeAt file (iN * cs) (chunkSeg S cs iN)).get? (jN * cs + k) =
          S.get? (jN * cs + k))) := by
  have hin : iN * cs < S.length := lt_total_mul S cs iN hcs hi
  have hleni := chunkSeg_length S cs iN
  refine ⟨?_, ?_, ?_⟩
  · rw [writeAt_length]
    omega
  · intro k hk
    rw [writeAt_get?_mid file (iN * cs) (chunkSeg S cs iN) k hk]
    exact chunkSeg_get? S cs iN k hk
  · intro jN hne hj hold k hk
    have hjn : jN * cs < S.length := lt_total_mul S cs jN hcs hj
    have hlenj := chunkSeg_length S cs jN
    have hpS : jN * cs + k < S.length := by omega
    have hSsome : S.get? (jN * cs + k) ≠ none := by
      simp only [ne_eq, List.get?_eq_none]
      omega
    have hfsome : file.get? (jN * cs + k) ≠ none := by
      rw [hold k hk]
      exact hSsome
    have hpf : jN * cs + k < file.length := by
      by_contra hc
      exact hfsome (List.get?_eq_none.mpr (by omega))
    have hdisj : jN * cs + k < iN * cs ∨ iN * cs + (chunkSeg S cs iN).length ≤ jN * cs + k := by
      rcases Nat.lt_or_ge jN iN with hlt | hge
      · left
        have h1 : (jN + 1) * cs ≤ iN * cs := Nat.mul_le_mul_right cs (by omega)
        have h2 : (jN + 1) * cs = jN * cs + cs := by
          rw [Nat.succ_mul]
        omega
      · right
        have hgt : iN < jN := by omega
        have h1 : (iN + 1) * cs ≤ jN * cs := Nat.mul_le_mul_right cs (by omega)
        have h2 : (iN + 1) * cs = iN * cs + cs := by
          rw [Nat.succ_mul]
        omega
    rw [writeAt_get?_outside file (iN * cs) (chunkSeg S cs iN) (jN * cs + k) hdisj hpf]
    exact hold k hk

/-- A chunk arriving with no manifest committed (`name` unset) is dropped by
the `TypeError` in `_data_path`, caught in `_on_message`. -/
lemma step_chunk_no_name (hash : List Nat → Nat) (idx : Int) (blob : List Nat)
    (vfail : Bool) (s : RState) (file : List Nat) (hname : s.name = none) :
    step hash s file (InMsg.chunk idx blob) vfail = ⟨s, file, []⟩ := by
  have hstep : step hash s file (InMsg.chunk idx blob) vfail =
      handleChunk hash idx blob vfail s file := rfl
  rw [hstep]
  unfold handleChunk
  rw [hname]

/-- Inbound messages of a faithful transfer of source `S` with chunk size
`cs`: manifests are the sender's manifest, and chunk messages carry an
in-range index with bytes whose digest matches the manifest's entry for that
index. -/
def GoodMsg (hash : List Nat → Nat) (S : List Nat) (cs : Nat) : InMsg → Prop
  | InMsg.meta mm => mm = senderManifest hash S (cs : Int)
  | InMsg.chunk idx blob => ∃ iN : Nat, idx = (iN : Int) ∧ iN < totalN S cs ∧
      hash blob = hash (chunkSeg S cs iN)
  | InMsg.statusRequest => True
  | InMsg.other => True

/-- Invariant for C9: before the manifest nothing is received or written;
after it, the data file never outgrows the source and every received index's
region of the data file agrees byte-for-byte with the source. -/
def SegInv (hash : List Nat → Nat) (S : List Nat) (cs : Nat) (s : RState)
    (file : List Nat) : Prop :=
  (s.name = none ∧ s.received = [] ∧ file = []) ∨
  (s.chunk_size = some (cs : Int) ∧ file.length ≤ S.length ∧
    ∀ i ∈ s.received, ∃ iN : Nat, i = (iN : Int) ∧ iN < totalN S cs ∧
      ∀ k, k < (chunkSeg S cs iN).length → file.get? (iN * cs + k) = S.get? (iN * cs + k))

lemma step_preserves_segInv (hash : List Nat → Nat) (hinj : Function.Injective hash)
    (S : List Nat) (cs : Nat) (hcs : 1 ≤ cs) (s : RState) (file : List Nat)
    (m : InMsg) (vfail : Bool) (hgood : GoodMsg hash S cs m)
    (hInv : SegInv hash S cs s file) :
    SegInv hash S cs (step hash s file m vfail).state (step hash s file m vfail).file := by
  cases m with
  | statusRequest => exact hInv
  | other => exact hInv
  | meta mm =>
    have hgood' : mm = senderManifest hash S (cs : Int) := hgood
    right
    have h1 : (step hash s file (InMsg.meta mm) vfail).state.chunk_size =
        some mm.chunk_size := rfl
    have h2 : (step hash s file (InMsg.meta mm) vfail).file = file := rfl
    have h3 : (step hash s file (InMsg.meta mm) vfail).state.received = s.received := rfl
    rw [h1, h2, h3, hgood']
    refine ⟨rfl, ?_, ?_⟩
    · rcases hInv with ⟨-, -, hf⟩ | ⟨-, hf, -⟩
      · rw [hf]
        simp
      · exact hf
    · rcases hInv with ⟨-, hr, -⟩ | ⟨-, -, hr⟩
      · rw [hr]
        intro i hi
        simp at hi
      · exact hr
  | chunk idx blob =>
    rcases hInv with ⟨hname, hrecv0, hfile0⟩ | ⟨hcsz, hflen, hrecv⟩
    · rw [step_chunk_no_name hash idx blob vfail s file hname]
      exact Or.inl ⟨hname, hrecv0, hfile0⟩
    · obtain ⟨iN, hidx, hiN, hhash⟩ := hgood
      have hblob : blob = chunkSeg S cs iN := hinj hhash
      have hstride : strideOf s blob = (cs : Int) := by
        unfold strideOf
        rw [hcsz]
        dsimp only
        rw [if_neg (by omega : ¬ ((cs : Int) = 0))]
      have hoff : (idx * strideOf s blob).toNat = iN * cs := by
        rw [hstride, hidx]
        rw [show ((iN : Int) * (cs : Int)) = ((iN * cs : Nat) : Int) from by push_cast; ring]
        exact Int.toNat_natCast _
      have hW := writeAt_chunk_preserves S cs hcs file hflen iN hiN
      have hwrite : writeAt file (idx * strideOf s blob).toNat blob =
          writeAt file (iN * cs) (chunkSeg S cs iN) := by
        rw [hoff, hblob]
      have hkeep : ∀ i ∈ s.received, ∃ jN : Nat, i = (jN : Int) ∧ jN < totalN S cs ∧
          ∀ k, k < (chunkSeg S cs jN).length →
            (writeAt file (iN * cs) (chunkSeg S cs iN)).get? (jN * cs + k) =
              S.get? (jN * cs + k) := by
        intro i hi
        obtain ⟨jN, hij, hjN, hsegj⟩ := hrecv i hi
        by_cases hje : jN = iN
        · subst hje
          exact ⟨jN, hij, hjN, hW.2.1⟩
        · exact ⟨jN, hij, hjN, hW.2.2 jN hje hjN hsegj⟩
      have hstep : step hash s file (InMsg.chunk idx blob) vfail =
          handleChunk hash idx blob vfail s file := rfl
      rw [hstep]
      rcases handleChunk_spec hash idx blob vfail s file with he | he | he | he <;> rw [he]
      · exact Or.inr ⟨hcsz, hflen, hrecv⟩
      · refine Or.inr ⟨hcsz, ?_, ?_⟩
        · dsimp only
          rw [hwrite]
          exact hW.1
        · dsimp only
          rw [hwrite]
          exact hkeep
      · refine Or.inr ⟨hcsz, ?_, ?_⟩
        · dsimp only
          rw [hwrite]
          exact hW.1
        · dsimp only
          rw [hwrite]
          exact hkeep
      · obtain ⟨f1, f2, f3, f4, f5, f6, f7⟩ := completionCheck_frame hash vfail
          { s with received := if idx ∈ s.received then s.received else s.received ++ [idx] }
          (writeAt file (idx * strideOf s blob).toNat blob)
        refine Or.inr ⟨?_, ?_, ?_⟩
        · rw [f5]
          exact hcsz
        · rw [f7, hwrite]
          exact hW.1
        · rw [f3, f7, hwrite]
          intro i hi
          by_cases hidxmem : idx ∈ s.received
          · rw [if_pos hidxmem] at hi
            exact hkeep i hi
          · rw [if_neg hidxmem] at hi
            rcases List.mem_append.mp hi with hi | hi
            · exact hkeep i hi
            · rw [List.mem_singleton.mp hi]
              exact ⟨iN, hidx, hiN, hW.2.1⟩

lemma runFrom_segInv (hash : List Nat → Nat) (hinj : Function.Injective hash)
    (S : List Nat) (cs : Nat) (hcs : 1 ≤ cs) (ms : List (InMsg × Bool)) (r : RunRes)
    (hgood : ∀ p ∈ ms, GoodMsg hash S cs p.1)
    (h : SegInv hash S cs r.state r.file) :
    SegInv hash S cs (runFrom hash r ms).state (runFrom hash r ms).file := by
  induction ms generalizing r with
  | nil => exact h
  | cons p rest ih =>
    obtain ⟨m, vf⟩ := p
    refine ih _ (fun q hq => hgood q (List.mem_cons_of_mem _ hq)) ?_
    exact step_preserves_segInv hash hinj S cs hcs r.state r.file m vf
      (hgood (m, vf) (List.mem_cons_self _ _)) h

/-- C9 (amended): over any inbound sequence whose manifests are the sender's
manifest for source `S` and whose chunk messages carry in-range indices with
bytes matching the manifest's per-chunk digest (hash collision-freeness
assumed via injectivity), every index in `received` marks a region of the
data file byte-identical to the corresponding source bytes.  (Unrestricted
duplicates falsify the claim: the source writes the incoming bytes before
verifying their hash, so a duplicate with wrong bytes corrupts a verified
region — see the counterexample.) -/
theorem received_regions_match_source (hash : List Nat → Nat)
    (hinj : Function.Injective hash) (S : List Nat) (cs : Nat) (hcs : 1 ≤ cs)
    (ms : List (InMsg × Bool)) (hgood : ∀ p ∈ ms, GoodMsg hash S cs p.1) :
    ∀ i ∈ (run hash ms).state.received, ∃ iN : Nat, i = (iN : Int) ∧ iN < totalN S cs ∧
      ((run hash ms).file.drop (iN * cs)).take cs = (S.drop (iN * cs)).take cs := by
  have hInv : SegInv hash S cs (run hash ms).state (run hash ms).file :=
    runFrom_segInv hash hinj S cs hcs ms ⟨initialState, [], []⟩ hgood
      (Or.inl ⟨rfl, rfl, rfl⟩)
  rcases hInv with ⟨-, hr, -⟩ | ⟨-, hflen, hrecv⟩
  · intro i hi
    rw [hr] at hi
    simp at hi
  · intro i hi
    obtain ⟨iN, hij, hiN, hseg⟩ := hrecv i hi
    exact ⟨iN, hij, hiN, seg_eq_of_pointwise S cs hcs _ iN hflen hiN hseg⟩

lemma encL_injective : Function.Injective encL := by
  intro a
  induction a with
  | nil =>
    intro b h
    cases b with
    | nil => rfl
    | cons y ys =>
      simp only [encL, List.foldr] at h
      omega
  | cons x xs ih =>
    intro b h
    cases b with
    | nil =>
      simp only [encL, List.foldr] at h
      omega
    | cons y ys =>
      simp only [encL, List.foldr] at h
      have h2 : Nat.pair x (List.foldr (fun b a => Nat.pair b a + 1) 0 xs) =
          Nat.pair y (List.foldr (fun b a => Nat.pair b a + 1) 0 ys) := by omega
      obtain ⟨hx, ht⟩ := Nat.pair_eq_pair.mp h2
      subst hx
      have ht' : encL xs = encL ys := ht
      rw [ih ht']

/-- C9 (counterexample): a faithful transfer of the one-byte source `[7]`
(chunk size 1) completes and acks; then a duplicate of chunk 0 arrives with
wrong bytes `[9]`.  `_handle_chunk` writes the bytes *before* the hash check,
so although the mismatch is detected and `received` stays `[0]`, the region
of index `0 ∈ received` now reads `[9]`, not the source bytes `[7]`. -/
theorem received_region_corrupted_counterexample :
    senderManifest encL [7] 1 = ⟨"f", 1, 1, 1, some (encL [7]), some [encL [7]]⟩ ∧
    (0 : Int) ∈ (run encL [(InMsg.meta ⟨"f", 1, 1, 1, some (encL [7]), some [encL [7]]⟩, false),
      (InMsg.chunk 0 [7], false), (InMsg.chunk 0 [9], false)]).state.received ∧
    (run encL [(InMsg.meta ⟨"f", 1, 1, 1, some (encL [7]), some [encL [7]]⟩, false),
      (InMsg.chunk 0 [7], false), (InMsg.chunk 0 [9], false)]).file = [9] ∧
    ¬ (((run encL [(InMsg.meta ⟨"f", 1, 1, 1, some (encL [7]), some [encL [7]]⟩, false),
      (InMsg.chunk 0 [7], false), (InMsg.chunk 0 [9], false)]).file.drop (0 * 1)).take 1 =
      (([7] : List Nat).drop (0 * 1)).take 1) := by
  refine ⟨?_, by decide, by decide, by decide⟩
  simp [senderManifest, pyReads, chunksOf]

theorem received_regions_match_source_witness :
    ∃ iN : Nat, (0 : Int) = (iN : Int) ∧ iN < totalN [7, 8] 1 ∧
      ((run encL [(InMsg.meta ⟨"f", 2, 1, 2, some (encL [7, 8]), some [encL [7], encL [8]]⟩,
          false), (InMsg.chunk 0 [7], false), (InMsg.chunk 1 [8], false)]).file.drop
        (iN * 1)).take 1 = (([7, 8] : List Nat).drop (iN * 1)).take 1 :=
  received_regions_match_source encL encL_injective [7, 8] 1 (by decide)
    [(InMsg.meta ⟨"f", 2, 1, 2, some (encL [7, 8]), some [encL [7], encL [8]]⟩, false),
      (InMsg.chunk 0 [7], false), (InMsg.chunk 1 [8], false)]
    (by
      intro p hp
      rcases List.mem_cons.mp hp with rfl | hp2
      · show (⟨"f", 2, 1, 2, some (encL [7, 8]), some [encL [7], encL [8]]⟩ : MetaMsg) =
          senderManifest encL [7, 8] ((1 : Nat) : Int)
        simp [senderManifest, pyReads, chunksOf]
      · rcases List.mem_cons.mp hp2 with rfl | hp3
        · exact ⟨0, rfl, by decide, by decide⟩
        · rcases List.mem_cons.mp hp3 with rfl | hp4
          · exact ⟨1, rfl, by decide, by decide⟩
          · simp at hp4)
    0 (by decide)
